import Mathlib

/-!
# Verification of the grammar combinator engine (`grammar.py`)

A shallow embedding of the backtracking parser-combinator engine.

## Modelling conventions

* Input text is `List Char`; `text[k:]` is `List.drop`, `text[:k]` is
  `List.take`, `text.startswith(s)` is `List.isPrefixOf`.
* A node's `parse` is a Python generator.  Its complete observable
  behaviour, when the consumer pulls it to the end, is the finite list of
  `(result, remaining)` pairs it yielded plus the way it ended: normal
  exhaustion (`StopIteration`), a raised exception (the only one reachable
  in this code is the `IndexError` from `self.sequence[0]` on an empty
  `Sequence`), or — in the embedding only — running out of fuel, standing
  for a computation the bounded evaluator did not finish.  This is the
  `POut` type; the `PEnd.fuelOut` marker never occurs in Python, it marks
  where the fueled evaluation was cut off.
* The generator machinery of `Sequence.parse` and `Repetition.parse`
  (a `while` loop over an explicit stack of frames, each frame holding the
  tuple of accumulated sub-results and a live sub-generator) is embedded as
  a step function `run` over an explicit call/state type `Call`,
  structurally recursive on a fuel counter so that the kernel can evaluate
  it on concrete inputs.  A frame's live generator is its not-yet-consumed
  output `POut`.
* The regex engine (`re`) is external to this repository; a `Regex`
  (`Pattern`) node carries an abstract anchored matcher
  `List Char → Option Nat` returning the end position `m.end(0)` of the
  match of `self._re.match(text)`, from which the code takes
  `m.group(0) = text[:end]` and the remaining `text[end:]`.
* `parse` reads the flags `name` / `discard` / `inline` after preparation,
  when `discard` and `inline` have been resolved to booleans; tree-model
  nodes therefore carry resolved `NodeFlags`.  The preparation pass itself,
  whose claims are about possibly-cyclic object graphs, is modelled
  separately on an id-indexed store (`Store`, `prepRun`) below.
-/

/-- The values flowing through the engine: raw matched strings, `Tree`
objects, `_InlineMarker` wrappers, and the `_discard_marker` singleton. -/
inductive PRes where
  | str (text : List Char)
  | tree (name : String) (children : List PRes)
  | inlined (data : List PRes)
  | discarded

/-- The `name` / `discard` / `inline` attributes of a prepared node. -/
structure NodeFlags where
  name : Option String
  discard : Bool
  inline : Bool
deriving DecidableEq, Repr

/-- `self.name or '<unnamed node>'` — Python `or` falls back on a falsy
name, i.e. on `None` and on the empty string. -/
def nodeNameOr (name : Option String) : String :=
  match name with
  | some s => if s = "" then "<unnamed node>" else s
  | none => "<unnamed node>"

/-- `BaseGrammarNode._build`: discard check, flattening comprehension
(splice `_InlineMarker.data`, drop `_discard_marker`, keep the rest),
then wrap as `_InlineMarker` or `Tree`. -/
def build (fl : NodeFlags) (r : List PRes) : PRes :=
  if fl.discard then .discarded
  else
    let r' := r.flatMap (fun t =>
      match t with
      | .inlined data => data
      | .discarded => []
      | t => [t])
    if fl.inline then .inlined r' else .tree (nodeNameOr fl.name) r'

/-- The grammar node algebra: `Symbol`, `Regex`, `Option` (choice),
`Sequence`, `Repetition`, each with its prepared flags and the fields its
`__init__` stores. -/
inductive GNode where
  | symbol (fl : NodeFlags) (text : List Char)
  | regex (fl : NodeFlags) (source : List Char) (re : List Char → Option Nat)
  | option (fl : NodeFlags) (options : List GNode)
  | sequence (fl : NodeFlags) (sequence : List GNode)
  | repetition (fl : NodeFlags) (base : GNode) (mi : Nat) (ma : Option Nat)

/-- How a generator's enumeration ends. -/
inductive PEnd where
  | done
  | crashed
  | fuelOut
deriving DecidableEq, Repr

/-- The complete output of one generator: the yielded
`(result, remaining)` pairs in order, and how the enumeration ended. -/
abbrev POut := List (PRes × List Char) × PEnd

/-- Running generator `a` to the end and then generator `b`
(`yield from` one after the other): if `a` does not end normally nothing
of `b` is observed. -/
def POut.seqApp (a b : POut) : POut :=
  match a.2 with
  | .done => (a.1 ++ b.1, b.2)
  | _ => a

/-- `Option.parse`'s per-result wrapping: each yielded pair `(r, t)` of an
alternative becomes `(self._build((r,)), t)`. -/
def wrapOut (fl : NodeFlags) (o : POut) : POut :=
  (o.1.map (fun rt => (build fl [rt.1], rt.2)), o.2)

/-- One stack frame of the `Sequence.parse` / `Repetition.parse` machines:
the tuple of accumulated sub-results and the not-yet-consumed part of the
frame's live sub-generator. -/
structure MFrame where
  acc : List PRes
  gen : POut

/-- The pending computations of the engine: a node's `parse`, the loop
over an `Option`'s alternatives, and the two stack machines (top of the
stack first; Python's `stack[-1]` is the head). -/
inductive Call where
  | parse (n : GNode) (text : List Char)
  | seqLoop (fl : NodeFlags) (sequence : List GNode) (stack : List MFrame)
  | repLoop (fl : NodeFlags) (base : GNode) (mi : Nat) (ma : Option Nat) (stack : List MFrame)

/-- The fueled evaluator.  Each equation is the translation of the
corresponding `parse` method:

* `Symbol.parse` (`grammar.py:134-136`), `Regex.parse` (`155-157`):
  at most one yield, then normal end.
* `Option.parse` (`172-174`): walk the alternatives in declared order,
  wrapping each yielded pair through this node's `_build`, running each
  alternative's generator to its end before the next one starts
  (`yield from` in a `for` loop, folded with `POut.seqApp`).
* `Sequence.parse` (`205-216`): the initial stack is
  `[((), sequence[0].parse(text))]` — on an empty `sequence` the
  subscript raises (`crashed`).  `seqLoop`: advance the top generator;
  on exhaustion pop (`StopIteration`) or propagate its exceptional end;
  on a yield `(r, t)`, if the stack is at full depth yield the built
  tuple, else push a frame for the next sub-node on `t`
  (an out-of-range subscript cannot occur here, it is mapped to
  `crashed` as any `IndexError` would be).
* `Repetition.parse` (`235-250`): the `min == 0` empty yield, then the
  same machine against the single `base` node; on a yield at
  `len(stack) >= mi` emit the built tuple and push another repetition
  only if `ma is None or len(stack) < ma`; below `mi` always push. -/
def run : Nat → Call → POut
  | 0, _ => ([], .fuelOut)
  | Nat.succ f, .parse n text =>
    match n with
    | .symbol fl s =>
      (if s.isPrefixOf text then [(build fl [.str s], text.drop s.length)] else [], .done)
    | .regex fl _ g =>
      ((match g text with
        | some e => [(build fl [.str (text.take e)], text.drop e)]
        | none => []), .done)
    | .option fl opts =>
      (opts.map (fun o => wrapOut fl (run f (.parse o text)))).foldr POut.seqApp ([], .done)
    | .sequence fl seq =>
      match seq[0]? with
      | none => ([], .crashed)
      | some n0 => run f (.seqLoop fl seq [⟨[], run f (.parse n0 text)⟩])
    | .repetition fl base mi ma =>
      let m := run f (.repLoop fl base mi ma [⟨[], run f (.parse base text)⟩])
      ((if mi == 0 then [(build fl [], text)] else []) ++ m.1, m.2)
  | Nat.succ f, .seqLoop fl seq stack =>
    match stack with
    | [] => ([], .done)
    | fr :: below =>
      match fr.gen.1 with
      | [] =>
        (match fr.gen.2 with
         | .done => run f (.seqLoop fl seq below)
         | e => ([], e))
      | (r, t) :: pend =>
        let acc' := fr.acc ++ [r]
        let fr' : MFrame := ⟨fr.acc, (pend, fr.gen.2)⟩
        if below.length + 1 == seq.length then
          let m := run f (.seqLoop fl seq (fr' :: below))
          ((build fl acc', t) :: m.1, m.2)
        else
          match seq[below.length + 1]? with
          | none => ([], .crashed)
          | some nxt => run f (.seqLoop fl seq (⟨acc', run f (.parse nxt t)⟩ :: fr' :: below))
  | Nat.succ f, .repLoop fl base mi ma stack =>
    match stack with
    | [] => ([], .done)
    | fr :: below =>
      match fr.gen.1 with
      | [] =>
        (match fr.gen.2 with
         | .done => run f (.repLoop fl base mi ma below)
         | e => ([], e))
      | (r, t) :: pend =>
        let depth := below.length + 1
        let acc' := fr.acc ++ [r]
        let fr' : MFrame := ⟨fr.acc, (pend, fr.gen.2)⟩
        if mi ≤ depth then
          let m :=
            if (match ma with
                | none => true
                | some mx => decide (depth < mx)) then
              run f (.repLoop fl base mi ma (⟨acc', run f (.parse base t)⟩ :: fr' :: below))
            else
              run f (.repLoop fl base mi ma (fr' :: below))
          ((build fl acc', t) :: m.1, m.2)
        else
          run f (.repLoop fl base mi ma (⟨acc', run f (.parse base t)⟩ :: fr' :: below))

/-- `node.parse(text)`, pulled to the end under the given fuel. -/
def GNode.parse (n : GNode) (fuel : Nat) (text : List Char) : POut :=
  run fuel (.parse n text)

/-!
## The preparation pass on the object graph

`prepare` (`grammar.py:92-106`, with the subclass recursions at
`143-144`, `164-165`, `181-184`, `223-226`, `257-259`) runs on the
*object graph*, which recursive grammars make cyclic: a node may reach
itself through its sub-node references, and the `_prepared` guard is what
makes the pass terminate.  The tree type `GNode` cannot express sharing
or cycles, so the pass is modelled on an id-indexed store: `Store` is a
list of node records, a sub-node reference is an index into it, and any
reference pattern — including self-reference — is expressible.  Flags are
the Python tri-state attributes (`Option Bool`, `none` = unset). -/

/-- A node's variant and its sub-node references, by store index. -/
inductive NKind where
  | symbol (text : String)
  | regex (text : String)
  | option (options : List Nat)
  | sequence (sequence : List Nat)
  | repetition (base : Nat) (mi : Nat) (ma : Option Nat)
deriving DecidableEq, Repr

/-- A node object's mutable attributes: `name`, tri-state `discard` and
`inline`, and the `_prepared` guard. -/
structure NodeRec where
  kind : NKind
  name : Option String
  discard : Option Bool
  inline : Option Bool
  prepared : Bool
deriving DecidableEq, Repr

/-- The object graph: node records addressed by index. -/
abbrev Store := List NodeRec

/-- The sub-nodes `prepare` recurses into: `Option` → each of
`self.options`, `Sequence` → each of `self.sequence`, `Repetition` →
`self.base`, terminals → none. -/
def childIds : NKind → List Nat
  | .symbol _ => []
  | .regex _ => []
  | .option os => os
  | .sequence s => s
  | .repetition b _ _ => [b]

/-- `isinstance(self, Symbol)`. -/
def isSymbolKind : NKind → Bool
  | .symbol _ => true
  | _ => false

/-- The flag-resolution body of `BaseGrammarNode.prepare`
(`grammar.py:94-103`): if `discard` is `None` it becomes
`isinstance(self, Symbol)`, else it is reassigned unchanged; if `inline`
is `None` it becomes `self.name is None`, else unchanged; then
`_prepared = True`. -/
def resolveFlags (n : NodeRec) : NodeRec :=
  { n with
    discard := some (match n.discard with
      | none => isSymbolKind n.kind
      | some b => b),
    inline := some (match n.inline with
      | none => n.name.isNone
      | some b => b),
    prepared := true }

/-- Pending preparation work: one node's `prepare()` call, or the loop
over a list of sub-nodes. -/
inductive PrepCall where
  | node (i : Nat)
  | nodes (js : List Nat)
deriving DecidableEq, Repr

/-- The fueled preparation pass.  `prepare` on node `i`: if the record is
already `_prepared` it returns immediately (the guard); otherwise it
resolves the flags, sets `_prepared`, and only then recurses into the
sub-nodes — the order that makes the pass terminate on cyclic graphs.
A dangling index (impossible in Python, where references are objects) is
a no-op.  Fuel only ever runs out when it is too small: `prepRun_stable`
below shows any fuel at least `prepCost` gives the pass's fixed result. -/
def prepRun : Nat → Store → PrepCall → Store
  | 0, st, _ => st
  | Nat.succ f, st, .node i =>
    match st[i]? with
    | none => st
    | some n =>
      if n.prepared then st
      else prepRun f (st.set i (resolveFlags n)) (.nodes (childIds n.kind))
  | Nat.succ _, st, .nodes [] => st
  | Nat.succ f, st, .nodes (j :: js) => prepRun f (prepRun f st (.node j)) (.nodes js)

/-- Fuel spent on one unprepared record: one step to enter it, one to
finish its child list, one per child-list element. -/
def recCost (n : NodeRec) : Nat :=
  if n.prepared then 0 else 2 + (childIds n.kind).length

/-- Total fuel the unprepared part of the store can consume. -/
def storeCost (st : Store) : Nat :=
  (st.map recCost).sum

/-- A fuel amount sufficient for the given call on the given store. -/
def prepCost : Store → PrepCall → Nat
  | st, .node _ => storeCost st + 1
  | st, .nodes js => storeCost st + js.length + 1

/-!
## Specification-side definitions and concrete instances

`flattenChildren` is the *spec's* description of the Tree Builder's
flattening step ("any child that is itself an Inline marker contributes
its wrapped list element-wise; any child that is a Discarded marker
contributes nothing; all other children pass through unchanged"), written
as the spec words it, to be compared with the comprehension in `_build`.
-/

/-- The flattening step as the specification words it. -/
def flattenChildren : List PRes → List PRes
  | [] => []
  | .inlined data :: ts => data ++ flattenChildren ts
  | .discarded :: ts => flattenChildren ts
  | .str s :: ts => .str s :: flattenChildren ts
  | .tree n cs :: ts => .tree n cs :: flattenChildren ts

/-- Number of direct children of a built result.  For a `Repetition`
whose own flags and whose base's flags are `discard = False`,
`inline = False`, each committed repetition contributes exactly one
child `Tree`, so this reads off the repetition count of a result. -/
def childCount : PRes → Nat
  | .tree _ cs => cs.length
  | .inlined data => data.length
  | _ => 0

/-- Flags of a node kept visible in the output: not discarded, not
inlined, anonymous. -/
def visFlags : NodeFlags := ⟨none, false, false⟩

/-- `Symbol('a')` with visible flags. -/
def symA : GNode := .symbol visFlags ['a']

/-- An ambiguous base: `Option([Symbol('a'), Symbol('a')])` — two
alternatives that match the same text, so every repetition count admits
several decompositions. -/
def ambigA : GNode := .option visFlags [symA, symA]

/-- `Repetition(ambigA, 0, 2)`. -/
def rep02 : GNode := .repetition visFlags ambigA 0 (some 2)

/-- `Repetition(Symbol('a'), 2, 1)` — `min > max`, constructed without
any validation, exactly as `Repetition.__init__` stores it. -/
def repMinGtMax : GNode := .repetition visFlags symA 2 (some 1)

/-- A cyclic object graph: node `0` is an `Option` whose single
alternative is node `1`, a `Sequence` that refers back to node `0`
twice — the self-referential shape recursive grammars produce. -/
def cycStore : Store :=
  [⟨.option [1], some "expr", none, none, false⟩,
   ⟨.sequence [0, 0], none, none, none, false⟩]

/-- The record of a `Symbol` node before preparation, flags unset. -/
def rawSymRec : NodeRec := ⟨.symbol "a", none, none, none, false⟩

/-!
## Fuel approximation order and the depth-first enumeration

`POutLe a b`: `a` is what the bounded evaluator saw of `b` — either the
same complete output, or a cut-off (`fuelOut`) prefix of its yields.
Raising the fuel moves `run` up this order (`run_mono`), which is what
ties the fueled evaluator to one well-defined enumeration.

`repDFS` is the depth-first enumeration `Repetition.parse` implements,
written recursively over decompositions instead of with the explicit
stack: given the repetitions committed so far (`acc`) and the not yet
consumed part of the current repetition's generator, take its next
result `(r, t)`; if at least `min` repetitions are now committed, yield
the built tuple, and — only when `max` permits — enumerate every
extension of this very decomposition by further repetitions of `base`
on `t`, all *before* returning to the alternative decompositions in the
rest of the generator; below `min`, extend without yielding.
`rep_machine_eq_dfs` below proves the stack machine enumerates exactly
this order. -/

/-- `a` is `b`, or a fuel-cut prefix of `b`'s yields. -/
def POutLe (a b : POut) : Prop :=
  a = b ∨ (a.2 = .fuelOut ∧ a.1 <+: b.1)

/-- Frames with the same accumulated results whose generators are
related by `POutLe`. -/
def FrameLe (x y : MFrame) : Prop :=
  x.acc = y.acc ∧ POutLe x.gen y.gen

/-- Calls that differ only in how much fuel computed the generators
stored in their machine frames. -/
inductive CallLe : Call → Call → Prop where
  | parse (n : GNode) (text : List Char) : CallLe (.parse n text) (.parse n text)
  | seqLoop (fl : NodeFlags) (sq : List GNode) {s1 s2 : List MFrame}
      (h : List.Forall₂ FrameLe s1 s2) : CallLe (.seqLoop fl sq s1) (.seqLoop fl sq s2)
  | repLoop (fl : NodeFlags) (base : GNode) (mi : Nat) (ma : Option Nat)
      {s1 s2 : List MFrame} (h : List.Forall₂ FrameLe s1 s2) :
      CallLe (.repLoop fl base mi ma s1) (.repLoop fl base mi ma s2)

/-- The depth-first enumeration of one repetition frame: `acc` is the
decomposition committed so far, the `POut` argument the rest of the
current repetition's generator. -/
def repDFS (fl : NodeFlags) (base : GNode) (mi : Nat) (ma : Option Nat) :
    Nat → List PRes → POut → POut
  | 0, _, _ => ([], .fuelOut)
  | Nat.succ f, acc, gen =>
    match gen.1 with
    | [] => ([], gen.2)
    | (r, t) :: pend =>
      let acc' := acc ++ [r]
      if mi ≤ acc'.length then
        let m :=
          if (match ma with
              | none => true
              | some mx => decide (acc'.length < mx)) then
            POut.seqApp (repDFS fl base mi ma f acc' (run f (.parse base t)))
              (repDFS fl base mi ma f acc (pend, gen.2))
          else
            repDFS fl base mi ma f acc (pend, gen.2)
        ((build fl acc', t) :: m.1, m.2)
      else
        POut.seqApp (repDFS fl base mi ma f acc' (run f (.parse base t)))
          (repDFS fl base mi ma f acc (pend, gen.2))

/-- The whole depth-first enumeration of `Repetition.parse`: the
`min == 0` empty match first, then the depth-first enumeration of the
decompositions starting from the base's results on the input. -/
def repetitionDFS (fl : NodeFlags) (base : GNode) (mi : Nat) (ma : Option Nat)
    (fuel : Nat) (text : List Char) : POut :=
  match fuel with
  | 0 => ([], .fuelOut)
  | Nat.succ f =>
    let m := repDFS fl base mi ma f [] (run f (.parse base text))
    ((if mi == 0 then [(build fl [], text)] else []) ++ m.1, m.2)

/-- Depth-first reading of a whole machine stack: the top frame's
enumeration, then — only if it finishes normally — the frame below it,
and so on. -/
def dStack (fl : NodeFlags) (base : GNode) (mi : Nat) (ma : Option Nat)
    (fuel : Nat) (stack : List MFrame) : POut :=
  stack.foldr (fun fr o => POut.seqApp (repDFS fl base mi ma fuel fr.acc fr.gen) o)
    ([], .done)

/-- The stack shapes `Repetition.parse` actually builds: the frame at
depth `k` (with `k - 1` frames below it) carries `k - 1` accumulated
results, so Python's `len(stack)` equals the length of the tuple being
extended. -/
def ChainOK : List MFrame → Prop
  | [] => True
  | fr :: below => fr.acc.length = below.length ∧ ChainOK below

/-!
### Facts about the preparation pass
-/

theorem recCost_resolveFlags (n : NodeRec) : recCost (resolveFlags n) = 0 := by
  simp [recCost, resolveFlags]

/-- Resolving an existing record pays for itself: the store's remaining
cost drops by exactly that record's cost. -/
theorem storeCost_set_resolve :
    ∀ (st : Store) (i : Nat) (n : NodeRec), st[i]? = some n →
      storeCost (st.set i (resolveFlags n)) + recCost n = storeCost st
  | [], i, n, h => by simp at h
  | r :: st, 0, n, h => by
    simp only [List.getElem?_cons_zero, Option.some.injEq] at h
    subst h
    simp [storeCost, recCost_resolveFlags]
    omega
  | r :: st, i + 1, n, h => by
    simp only [List.getElem?_cons_succ] at h
    have ih := storeCost_set_resolve st i n h
    simp only [List.set_cons_succ, storeCost, List.map_cons, List.sum_cons] at *
    omega

/-- The pass never touches a record that is already `_prepared`. -/
theorem prepRun_preserves_prepared (f : Nat) (st : Store) (c : PrepCall)
    {i : Nat} {n : NodeRec} (hi : st[i]? = some n) (hp : n.prepared = true) :
    (prepRun f st c)[i]? = some n := by
  induction f generalizing st c with
  | zero => simpa [prepRun] using hi
  | succ f ih =>
    cases c with
    | node j =>
      simp only [prepRun]
      split
      · exact hi
      · next m hj =>
        split
        · exact hi
        · next hq =>
          apply ih
          rcases Nat.decEq j i with hne | heq
          · rwa [List.getElem?_set_ne hne]
          · exfalso
            subst heq
            rw [hi] at hj
            cases hj
            simp [hp] at hq
    | nodes js =>
      cases js with
      | nil => simpa [prepRun] using hi
      | cons j js =>
        simp only [prepRun]
        exact ih _ _ (ih _ _ hi)

/-- The pass only ever lowers the store's remaining cost. -/
theorem storeCost_prepRun_le (f : Nat) (st : Store) (c : PrepCall) :
    storeCost (prepRun f st c) ≤ storeCost st := by
  induction f generalizing st c with
  | zero => simp [prepRun]
  | succ f ih =>
    cases c with
    | node j =>
      simp only [prepRun]
      split
      · exact Nat.le_refl _
      · next m hj =>
        split
        · exact Nat.le_refl _
        · have hset := storeCost_set_resolve st j m hj
          have := ih (st.set j (resolveFlags m)) (.nodes (childIds m.kind))
          omega
    | nodes js =>
      cases js with
      | nil => simp [prepRun]
      | cons j js =>
        simp only [prepRun]
        exact Nat.le_trans (ih _ (.nodes js)) (ih _ (.node j))

/-- Termination on every graph, cycles included: any two fuel amounts at
least `prepCost` give the same final store, so the guarded recursion has a
well-defined result the fueled pass reaches. -/
theorem prepRun_agree :
    ∀ (f g : Nat) (st : Store) (c : PrepCall),
      prepCost st c ≤ f → f ≤ g → prepRun f st c = prepRun g st c := by
  intro f
  induction f with
  | zero =>
    intro g st c hc _
    cases c <;> simp [prepCost] at hc
  | succ f ih =>
    intro g st c hc hfg
    cases g with
    | zero => omega
    | succ g =>
      have hfg' : f ≤ g := Nat.le_of_succ_le_succ hfg
      cases c with
      | node i =>
        simp only [prepRun]
        split
        · rfl
        · next m hj =>
          split
          · rfl
          · apply ih
            · have hset := storeCost_set_resolve st i m hj
              have hm : m.prepared = false := by
                revert hset
                simp_all [recCost]
              simp only [prepCost] at hc ⊢
              rw [recCost] at hset
              simp [hm] at hset
              omega
            · exact hfg'
      | nodes js =>
        cases js with
        | nil => simp [prepRun]
        | cons j js =>
          simp only [prepRun]
          have h1 : prepRun f st (.node j) = prepRun g st (.node j) := by
            apply ih _ _ _ _ hfg'
            simp only [prepCost, List.length_cons] at hc ⊢
            omega
          rw [← h1]
          apply ih _ _ _ _ hfg'
          have := storeCost_prepRun_le f st (.node j)
          simp only [prepCost, List.length_cons] at hc ⊢
          omega

/-- After a (sufficient-fuel-free) call on an existing unprepared node,
that node's record is its flag-resolved, `_prepared` form. -/
theorem prepRun_marks (f : Nat) (st : Store) {i : Nat} {n : NodeRec}
    (hi : st[i]? = some n) (hp : n.prepared = false) :
    (prepRun (f + 1) st (.node i))[i]? = some (resolveFlags n) := by
  have hlt : i < st.length := by
    rcases List.getElem?_eq_some.mp hi with ⟨h, _⟩
    exact h
  simp only [prepRun, hi, hp, if_false, Bool.false_eq_true]
  apply prepRun_preserves_prepared
  · rw [List.getElem?_set_self (by simpa using hlt)]
  · simp [resolveFlags]

/-- Every record of the result is either the original record untouched,
or — only if it was unprepared — its flag-resolved form.  This is the
whole effect of the pass on any one node. -/
theorem prepRun_get_rel :
    ∀ (f : Nat) (st : Store) (c : PrepCall) (j : Nat) (rec' : NodeRec),
      (prepRun f st c)[j]? = some rec' →
      ∃ rec, st[j]? = some rec ∧
        (rec' = rec ∨ (rec.prepared = false ∧ rec' = resolveFlags rec)) := by
  intro f
  induction f with
  | zero =>
    intro st c j rec' h
    exact ⟨rec', by simpa [prepRun] using h, Or.inl rfl⟩
  | succ f ih =>
    intro st c j rec' h
    cases c with
    | node i =>
      simp only [prepRun] at h
      split at h
      · exact ⟨rec', h, Or.inl rfl⟩
      · next m hj =>
        split at h
        · exact ⟨rec', h, Or.inl rfl⟩
        · next hq =>
          have hm : m.prepared = false := by
            cases hmp : m.prepared
            · rfl
            · exact absurd hmp hq
          rcases ih _ _ _ _ h with ⟨rec1, hrec1, hrel1⟩
          rcases Nat.decEq i j with hne | heq
          · rw [List.getElem?_set_ne hne] at hrec1
            exact ⟨rec1, hrec1, hrel1⟩
          · subst heq
            have hlt : i < st.length := by
              rcases List.getElem?_eq_some.mp hj with ⟨h, _⟩
              exact h
            rw [List.getElem?_set_self (by simpa using hlt)] at hrec1
            cases hrec1
            refine ⟨m, hj, Or.inr ⟨hm, ?_⟩⟩
            rcases hrel1 with h1 | ⟨h1, _⟩
            · exact h1
            · simp [resolveFlags] at h1
    | nodes js =>
      cases js with
      | nil =>
        exact ⟨rec', by simpa [prepRun] using h, Or.inl rfl⟩
      | cons x xs =>
        simp only [prepRun] at h
        rcases ih _ _ _ _ h with ⟨rec1, hrec1, hrel1⟩
        rcases ih _ _ _ _ hrec1 with ⟨rec0, hrec0, hrel0⟩
        refine ⟨rec0, hrec0, ?_⟩
        rcases hrel0 with h0 | ⟨h0p, h0⟩
        · subst h0
          exact hrel1
        · subst h0
          rcases hrel1 with h1 | ⟨h1p, _⟩
          · exact Or.inr ⟨h0p, h1⟩
          · simp [resolveFlags] at h1p

/-- `prepare` on an already-prepared node returns before doing anything:
the store is unchanged and no sub-node is visited. -/
theorem prepRun_noop (f : Nat) (st : Store) {i : Nat} {n : NodeRec}
    (hi : st[i]? = some n) (hp : n.prepared = true) :
    prepRun f st (.node i) = st := by
  cases f with
  | zero => rfl
  | succ f => simp [prepRun, hi, hp]

/-!
### Facts about the evaluator
-/

/-- Appending the empty, normally-ended generator changes nothing. -/
theorem seqApp_nil_done (o : POut) : POut.seqApp o ([], .done) = o := by
  rcases o with ⟨l, e⟩
  cases e <;> simp [POut.seqApp]

/-- Everything yielded by a `seqApp` was yielded by one of its parts. -/
theorem mem_seqApp {p : PRes × List Char} {a b : POut}
    (h : p ∈ (POut.seqApp a b).1) : p ∈ a.1 ∨ p ∈ b.1 := by
  rcases a with ⟨l, e⟩
  cases e <;> simp_all [POut.seqApp]

/-- Core invariant of the evaluator: every `remaining` it ever yields is
a suffix of the text being parsed.  For the machines, the suffix target
is any text all frames' pending remainders are suffixes of. -/
theorem run_suffix (f : Nat) :
    (∀ n text r u, (r, u) ∈ (run f (.parse n text)).1 → u <:+ text) ∧
    (∀ fl sq stack text r u,
        (∀ fr ∈ stack, ∀ p ∈ fr.gen.1, p.2 <:+ text) →
        (r, u) ∈ (run f (.seqLoop fl sq stack)).1 → u <:+ text) ∧
    (∀ fl base mi ma stack text r u,
        (∀ fr ∈ stack, ∀ p ∈ fr.gen.1, p.2 <:+ text) →
        (r, u) ∈ (run f (.repLoop fl base mi ma stack)).1 → u <:+ text) := by
  induction f with
  | zero =>
    refine ⟨?_, ?_, ?_⟩ <;> intro _ <;> intros <;> simp_all [run]
  | succ f ih =>
    obtain ⟨ihp, ihs, ihr⟩ := ih
    refine ⟨?_, ?_, ?_⟩
    · intro n text r u hm
      cases n with
      | symbol fl s =>
        simp only [run] at hm
        split at hm
        · simp only [List.mem_singleton, Prod.mk.injEq] at hm
          exact hm.2 ▸ List.drop_suffix _ _
        · simp at hm
      | regex fl src g =>
        simp only [run] at hm
        split at hm
        · next e _ =>
          simp only [List.mem_singleton, Prod.mk.injEq] at hm
          exact hm.2 ▸ List.drop_suffix _ _
        · simp at hm
      | option fl opts =>
        simp only [run] at hm
        induction opts with
        | nil => simp at hm
        | cons o os iho =>
          simp only [List.map_cons, List.foldr_cons] at hm
          rcases mem_seqApp hm with h | h
          · simp only [wrapOut, List.mem_map, Prod.mk.injEq] at h
            rcases h with ⟨⟨a, b⟩, hab, _, hu⟩
            exact hu ▸ ihp o text a b hab
          · exact iho h
      | sequence fl sq =>
        simp only [run] at hm
        split at hm
        · simp at hm
        · next n0 h0 =>
          refine ihs fl sq _ text r u ?_ hm
          intro fr hfr p hp
          simp only [List.mem_singleton] at hfr
          subst hfr
          exact ihp n0 text p.1 p.2 hp
      | repetition fl base mi ma =>
        simp only [run] at hm
        rcases List.mem_append.mp hm with h | h
        · split at h
          · simp only [List.mem_singleton, Prod.mk.injEq] at h
            exact h.2 ▸ List.suffix_refl _
          · simp at h
        · refine ihr fl base mi ma _ text r u ?_ h
          intro fr hfr p hp
          simp only [List.mem_singleton] at hfr
          subst hfr
          exact ihp base text p.1 p.2 hp
    · intro fl sq stack text r u hstk hm
      cases stack with
      | nil => simp [run] at hm
      | cons fr below =>
        obtain ⟨acc, gl, ge⟩ := fr
        cases gl with
        | nil =>
          simp only [run] at hm
          cases ge with
          | done =>
            refine ihs fl sq below text r u ?_ hm
            intro fr2 h2 p hp
            exact hstk fr2 (List.mem_cons_of_mem _ h2) p hp
          | crashed => simp at hm
          | fuelOut => simp at hm
        | cons hd pend =>
          obtain ⟨rr, tt⟩ := hd
          have htt : tt <:+ text :=
            hstk ⟨acc, (rr, tt) :: pend, ge⟩ (List.mem_cons_self _ _) (rr, tt)
              (List.mem_cons_self _ _)
          simp only [run] at hm
          split at hm
          · rcases List.mem_cons.mp hm with h | h
            · rw [(Prod.mk.injEq _ _ _ _).mp h |>.2]
              exact htt
            · refine ihs fl sq _ text r u ?_ h
              intro fr2 h2 p hp
              rcases List.mem_cons.mp h2 with h3 | h3
              · subst h3
                exact hstk _ (List.mem_cons_self _ _) p (List.mem_cons_of_mem _ hp)
              · exact hstk fr2 (List.mem_cons_of_mem _ h3) p hp
          · split at hm
            · simp at hm
            · next nxt hnxt =>
              refine ihs fl sq _ text r u ?_ hm
              intro fr2 h2 p hp
              rcases List.mem_cons.mp h2 with h3 | h3
              · subst h3
                exact (ihp nxt tt p.1 p.2 hp).trans htt
              · rcases List.mem_cons.mp h3 with h4 | h4
                · subst h4
                  exact hstk _ (List.mem_cons_self _ _) p (List.mem_cons_of_mem _ hp)
                · exact hstk fr2 (List.mem_cons_of_mem _ h4) p hp
    · intro fl base mi ma stack text r u hstk hm
      cases stack with
      | nil => simp [run] at hm
      | cons fr below =>
        obtain ⟨acc, gl, ge⟩ := fr
        cases gl with
        | nil =>
          simp only [run] at hm
          cases ge with
          | done =>
            refine ihr fl base mi ma below text r u ?_ hm
            intro fr2 h2 p hp
            exact hstk fr2 (List.mem_cons_of_mem _ h2) p hp
          | crashed => simp at hm
          | fuelOut => simp at hm
        | cons hd pend =>
          obtain ⟨rr, tt⟩ := hd
          have htt : tt <:+ text :=
            hstk ⟨acc, (rr, tt) :: pend, ge⟩ (List.mem_cons_self _ _) (rr, tt)
              (List.mem_cons_self _ _)
          have hpush : ∀ fr2 ∈
              ({ acc := acc ++ [rr], gen := run f (.parse base tt) } : MFrame) ::
                ⟨acc, (pend, ge)⟩ :: below, ∀ p ∈ fr2.gen.1, p.2 <:+ text := by
            intro fr2 h2 p hp
            rcases List.mem_cons.mp h2 with h3 | h3
            · subst h3
              exact (ihp base tt p.1 p.2 hp).trans htt
            · rcases List.mem_cons.mp h3 with h4 | h4
              · subst h4
                exact hstk _ (List.mem_cons_self _ _) p (List.mem_cons_of_mem _ hp)
              · exact hstk fr2 (List.mem_cons_of_mem _ h4) p hp
          simp only [run] at hm
          split at hm
          · rcases List.mem_cons.mp hm with h | h
            · rw [(Prod.mk.injEq _ _ _ _).mp h |>.2]
              exact htt
            · split at h
              · exact ihr fl base mi ma _ text r u hpush h
              · refine ihr fl base mi ma _ text r u ?_ h
                intro fr2 h2 p hp
                rcases List.mem_cons.mp h2 with h3 | h3
                · subst h3
                  exact hstk _ (List.mem_cons_self _ _) p (List.mem_cons_of_mem _ hp)
                · exact hstk fr2 (List.mem_cons_of_mem _ h3) p hp
          · exact ihr fl base mi ma _ text r u hpush hm

/-- The flattening comprehension in `_build` computes exactly the
specification's flattening. -/
theorem flatMap_eq_flattenChildren (r : List PRes) :
    (r.flatMap (fun t =>
      match t with
      | .inlined data => data
      | .discarded => []
      | t => [t])) = flattenChildren r := by
  induction r with
  | nil => simp [flattenChildren]
  | cons t ts ih =>
    cases t <;> simp [flattenChildren, ih]

/-- The repetition machine under `min = 0, max = 0`, started on the
single initial frame: the check `len(stack) < ma` only guards *pushing*,
never the yield itself, so every result of the already-created first
repetition frame is yielded once, and the frame's end is passed on. -/
theorem repLoop_max0 (l : List (PRes × List Char)) :
    ∀ (e : PEnd) (f : Nat) (fl : NodeFlags) (base : GNode),
      l.length + 2 ≤ f →
      run f (.repLoop fl base 0 (some 0) [⟨[], (l, e)⟩]) =
        (l.map (fun rt => (build fl [rt.1], rt.2)), e) := by
  induction l with
  | nil =>
    intro e f fl base hf
    obtain ⟨g, rfl⟩ : ∃ g, f = g + 2 := ⟨f - 2, by omega⟩
    cases e <;> simp [run]
  | cons hd rest ih =>
    intro e f fl base hf
    obtain ⟨g, rfl⟩ : ∃ g, f = g + 1 := ⟨f - 1, by omega⟩
    obtain ⟨r, t⟩ := hd
    have hrec := ih e g fl base (by simp only [List.length_cons] at hf; omega)
    simp only [run, hrec]
    simp

/-!
## The claims
-/

/-- Claim C5: for every prepared node and every ordered list of raw child
results, the tree builder produces the Discarded marker whenever the
node's discard flag is true regardless of the children; otherwise it
flattens the children by splicing Inline markers element-wise and
dropping Discarded markers, then wraps the flattened list in an Inline
marker if the inline flag is true, and otherwise produces a Named Tree
using the node's name, falling back to `"<unnamed node>"` when the name
is unset.  (The hypothesis excludes the empty-string name, which no
construction in the repository produces: `__set_name__` only ever
assigns Python identifiers.) -/
theorem claim_C5_tree_builder (fl : NodeFlags) (r : List PRes)
    (hname : fl.name ≠ some "") :
    build fl r =
      if fl.discard then .discarded
      else if fl.inline then .inlined (flattenChildren r)
      else .tree (fl.name.getD "<unnamed node>") (flattenChildren r) := by
  have hn : nodeNameOr fl.name = fl.name.getD "<unnamed node>" := by
    cases h : fl.name with
    | none => rfl
    | some s =>
      have hs : s ≠ "" := by
        rintro rfl
        exact hname h
      simp [nodeNameOr, hs]
  simp only [build, flatMap_eq_flattenChildren, hn]

theorem claim_C5_tree_builder_witness :
    build ⟨some "item", false, false⟩ [.str ['x'], .discarded, .inlined [.str ['y']]] =
      if (false : Bool) then .discarded
      else if (false : Bool) then
        .inlined (flattenChildren [.str ['x'], .discarded, .inlined [.str ['y']]])
      else
        .tree ((some "item").getD "<unnamed node>")
          (flattenChildren [.str ['x'], .discarded, .inlined [.str ['y']]]) :=
  claim_C5_tree_builder ⟨some "item", false, false⟩
    [.str ['x'], .discarded, .inlined [.str ['y']]] (by decide)

/-- Claim C7: for every Choice node with alternatives `[A, B]` and every
input, the result sequence of `parse(input)` equals `A.parse(input)`'s
results each wrapped through this Choice's own build step, followed by
`B.parse(input)`'s results likewise wrapped, in that order (concatenated
by `POut.seqApp`, which also carries `A`'s end over when `A` does not end
normally).  `parse` is a pure function of the node, the fuel and the
text, so the order is deterministic across repeated calls. -/
theorem claim_C7_choice_order (fl : NodeFlags) (A B : GNode) (f : Nat)
    (text : List Char) :
    GNode.parse (.option fl [A, B]) (f + 1) text =
      POut.seqApp (wrapOut fl (GNode.parse A f text))
        (wrapOut fl (GNode.parse B f text)) := by
  simp [GNode.parse, run, seqApp_nil_done]

/-- Claim C8: for every `Literal(text)` node and every input,
`parse(input)` yields exactly one result — the built match of `text`
paired with the input with the leading `text` removed — if and only if
the input starts with `text`, and yields zero results (with a normal end,
not an error) otherwise. -/
theorem claim_C8_literal (fl : NodeFlags) (s text : List Char) (f : Nat) :
    (∃ rest, text = s ++ rest ∧
        GNode.parse (.symbol fl s) (f + 1) text =
          ([(build fl [.str s], rest)], .done)) ∨
    ((¬ ∃ rest, text = s ++ rest) ∧
        GNode.parse (.symbol fl s) (f + 1) text = ([], .done)) := by
  by_cases h : s.isPrefixOf text
  · left
    rcases List.isPrefixOf_iff_prefix.mp h with ⟨rest, hrest⟩
    refine ⟨rest, hrest.symm, ?_⟩
    simp [GNode.parse, run, h, ← hrest, List.drop_left]
  · right
    constructor
    · rintro ⟨rest, rfl⟩
      exact h (List.isPrefixOf_iff_prefix.mpr ⟨rest, rfl⟩)
    · simp [GNode.parse, run, h]

/-- Claim C10: for every node and every input text, every
`(result, remaining)` pair yielded by `parse` has `remaining` equal to a
suffix of the input text; `parse` never yields remaining text that is not
a suffix of its input. -/
theorem claim_C10_remaining_suffix (n : GNode) (fuel : Nat) (text : List Char)
    (r : PRes) (u : List Char) (h : (r, u) ∈ (GNode.parse n fuel text).1) :
    u <:+ text :=
  (run_suffix fuel).1 n text r u h

theorem claim_C10_remaining_suffix_witness : ['b'] <:+ ['a', 'b'] :=
  claim_C10_remaining_suffix (.symbol visFlags ['a']) 3 ['a', 'b']
    (build visFlags [.str ['a']]) ['b'] (List.mem_singleton_self _)

/-- Claim C1, counterexample.  `rep02` is `Repetition(base, 0, 2)` over
the ambiguous base `Option([Symbol('a'), Symbol('a')])`, all nodes
non-discarded and non-inlined, so a result's repetition count is its
tree's number of children (`childCount`).  On `"aa"` the engine yields
counts `0, 1, 2, 2, 1, 2, 2`: the second decomposition of count 1
arrives *after* count-2 results, so the enumeration is not in
non-decreasing repetition count, and the count-1 decompositions are not
exhausted before a higher count appears — the claimed order is false. -/
theorem claim_C1_counterexample :
    ((GNode.parse rep02 40 ['a', 'a']).1.map (fun p => childCount p.1)
        = [0, 1, 2, 2, 1, 2, 2]) ∧
    ¬ List.Sorted (· ≤ ·)
        ((GNode.parse rep02 40 ['a', 'a']).1.map (fun p => childCount p.1)) := by
  have h : (GNode.parse rep02 40 ['a', 'a']).1.map (fun p => childCount p.1)
      = [0, 1, 2, 2, 1, 2, 2] := rfl
  refine ⟨h, ?_⟩
  rw [h]
  decide

/-- Claim C2, counterexample: `Repetition(Symbol('a'), 0, 0)` on `"a"`
yields TWO results, not exactly one — after the empty match, the initial
repetition frame is pushed without consulting `max`, and its yield at
`len(stack) = 1 >= min = 0` is not guarded by `max` either. -/
theorem claim_C2_counterexample :
    (GNode.parse (.repetition visFlags symA 0 (some 0)) 10 ['a']).1.length = 2 := by
  decide

/-- Claim C2, amended: for `min = 0, max = 0`, `parse` yields the empty
match first and then one additional result for every way the base parses
the input once — `max` is consulted only to stop *extension* after a
yield, never to prevent the first repetition frame or its yields.  The
base's end (normal, crashed, or out of fuel) is passed through. -/
theorem claim_C2_amended (fl : NodeFlags) (base : GNode) (text : List Char)
    (f : Nat) (l : List (PRes × List Char)) (e : PEnd)
    (hbase : GNode.parse base f text = (l, e)) (hf : l.length + 2 ≤ f) :
    GNode.parse (.repetition fl base 0 (some 0)) (f + 1) text =
      ((build fl [], text) :: l.map (fun rt => (build fl [rt.1], rt.2)), e) := by
  unfold GNode.parse at hbase ⊢
  simp only [run]
  rw [hbase, repLoop_max0 l e f fl base hf]
  simp

theorem claim_C2_amended_witness :
    GNode.parse (.repetition visFlags symA 0 (some 0)) 11 ['a'] =
      ((build visFlags [], ['a']) ::
        [(build visFlags [.tree "<unnamed node>" [.str ['a']]], [])], .done) :=
  claim_C2_amended visFlags symA ['a'] 10
    [(.tree "<unnamed node>" [.str ['a']], [])] .done rfl (by decide)

/-- Claim C3, counterexample: `Repetition(Symbol('a'), 2, 1)` has
`min > max`; its `__init__` (`grammar.py:230-233`) stores the bounds with
no validation, and `parse` on `"aa"` silently yields a match — the claim
that the combination either fails to construct or yields nothing on
every input is false. -/
theorem claim_C3_counterexample :
    (GNode.parse repMinGtMax 20 ['a', 'a']).1 ≠ [] :=
  fun h => absurd (congrArg List.length h) (by decide)


/-- Claim C4, counterexample: `Sequence([])` constructs without any
check (`Sequence.__init__`, `grammar.py:188-189`, stores the list
unconditionally — in the embedding the constructor term itself), and the
violation surfaces only when `parse` is pulled: `self.sequence[0]`
raises `IndexError`, i.e. the run ends `crashed` with no results — a
runtime parse failure, not a construction-time one. -/
theorem claim_C4_counterexample :
    GNode.parse (.sequence visFlags []) 1 ['a'] = ([], .crashed) := rfl

/-- Claim C4, amended: constructing a Sequence with an empty sub-node
list succeeds; the contract violation surfaces at parse time as a raised
`IndexError` (the `crashed` end, with zero results yielded) on every
input — loud, but a runtime parse failure, and not a silent
no-match. -/
theorem claim_C4_amended (fl : NodeFlags) (f : Nat) (text : List Char) :
    GNode.parse (.sequence fl []) (f + 1) text = ([], .crashed) := by
  simp [GNode.parse, run]

/-- Claim C6: for every node whose discard flag is unset before
preparation, preparation resolves discard to true exactly when the node
is a Literal (`Symbol`) and to false otherwise; for every node whose
inline flag is unset, preparation resolves inline to true exactly when
the node has no assigned name; explicitly set flags are left unchanged.
Stated for any node `j` of any store that an arbitrary `prepare` call
(on any root `i`, any fuel) took from unprepared to prepared. -/
theorem claim_C6_flag_defaults (f : Nat) (st : Store) (i j : Nat)
    (rec rec' : NodeRec) (hj : st[j]? = some rec)
    (hj' : (prepRun f st (.node i))[j]? = some rec')
    (hwas : rec.prepared = false) (hnow : rec'.prepared = true) :
    (rec.discard = none → (rec'.discard = some true ↔ isSymbolKind rec.kind = true)) ∧
    (rec.discard ≠ none → rec'.discard = rec.discard) ∧
    (rec.inline = none → (rec'.inline = some true ↔ rec.name = none)) ∧
    (rec.inline ≠ none → rec'.inline = rec.inline) := by
  rcases prepRun_get_rel f st (.node i) j rec' hj' with ⟨rec0, h0, hrel⟩
  rw [hj] at h0
  cases h0
  rcases hrel with h | ⟨_, h⟩
  · subst h
    rw [hwas] at hnow
    cases hnow
  · subst h
    refine ⟨?_, ?_, ?_, ?_⟩
    · intro hd
      cases hk : rec.kind <;> simp [resolveFlags, isSymbolKind, hd, hk]
    · intro hd
      rcases hb : rec.discard with _ | b
      · exact absurd hb hd
      · simp [resolveFlags, hb]
    · intro hd
      cases hn : rec.name <;> simp [resolveFlags, hd, hn]
    · intro hd
      rcases hb : rec.inline with _ | b
      · exact absurd hb hd
      · simp [resolveFlags, hb]

theorem claim_C6_flag_defaults_witness :
    (rawSymRec.discard = none →
        ((resolveFlags rawSymRec).discard = some true ↔
          isSymbolKind rawSymRec.kind = true)) ∧
    (rawSymRec.discard ≠ none →
        (resolveFlags rawSymRec).discard = rawSymRec.discard) ∧
    (rawSymRec.inline = none →
        ((resolveFlags rawSymRec).inline = some true ↔ rawSymRec.name = none)) ∧
    (rawSymRec.inline ≠ none →
        (resolveFlags rawSymRec).inline = rawSymRec.inline) :=
  claim_C6_flag_defaults 2 [rawSymRec] 0 0 rawSymRec (resolveFlags rawSymRec)
    rfl rfl rfl rfl

/-- Claim C9: preparation is idempotent and terminates on every node
graph including cyclic (self-referential) ones.  In order: (1) `prepare`
on an already-prepared node is a no-op (the guard returns before any
flag write or sub-node visit, so the store — all flags included — is
untouched); (2) each node is rewritten at most once, from its original
record to its flag-resolved form, never twice (a visited node is
`_prepared` and the guard stops any re-visit); (3) termination on an
arbitrary — possibly cyclic — graph: every fuel at least
`prepCost st (.node i)` yields the same final store, i.e. the guarded
recursion finishes within a bound set by the store's unprepared part and
never loops; (4) a second `prepare` of the same node is a no-op on the
result of the first. -/
theorem claim_C9_prepare_idempotent (f g h : Nat) (st : Store) (i j : Nat)
    (n rec rec' : NodeRec) (hi : st[i]? = some n) :
    (n.prepared = true → prepRun f st (.node i) = st) ∧
    (st[j]? = some rec → (prepRun f st (.node i))[j]? = some rec' →
        rec' = rec ∨ rec' = resolveFlags rec) ∧
    (prepCost st (.node i) ≤ f → f ≤ g →
        prepRun f st (.node i) = prepRun g st (.node i)) ∧
    (prepRun h (prepRun (f + 1) st (.node i)) (.node i) =
        prepRun (f + 1) st (.node i)) := by
  refine ⟨fun hp => prepRun_noop f st hi hp, ?_,
    fun hc hfg => prepRun_agree f g st _ hc hfg, ?_⟩
  · intro hj hj'
    rcases prepRun_get_rel f st (.node i) j rec' hj' with ⟨rec0, h0, hrel⟩
    rw [hj] at h0
    cases h0
    rcases hrel with h1 | ⟨_, h1⟩
    · exact Or.inl h1
    · exact Or.inr h1
  · cases hp : n.prepared
    · exact prepRun_noop h _ (prepRun_marks f st hi hp) (by simp [resolveFlags])
    · rw [prepRun_noop (f + 1) st hi hp]
      exact prepRun_noop h st hi hp

theorem claim_C9_prepare_idempotent_witness :
    ((⟨.option [1], some "expr", none, none, false⟩ : NodeRec).prepared = true →
        prepRun 9 cycStore (.node 0) = cycStore) ∧
    (cycStore[1]? = some ⟨.sequence [0, 0], none, none, none, false⟩ →
        (prepRun 9 cycStore (.node 0))[1]? =
          some (resolveFlags ⟨.sequence [0, 0], none, none, none, false⟩) →
        resolveFlags ⟨.sequence [0, 0], none, none, none, false⟩ =
            (⟨.sequence [0, 0], none, none, none, false⟩ : NodeRec) ∨
          resolveFlags ⟨.sequence [0, 0], none, none, none, false⟩ =
            resolveFlags ⟨.sequence [0, 0], none, none, none, false⟩) ∧
    (prepCost cycStore (.node 0) ≤ 9 → 9 ≤ 30 →
        prepRun 9 cycStore (.node 0) = prepRun 30 cycStore (.node 0)) ∧
    (prepRun 5 (prepRun 10 cycStore (.node 0)) (.node 0) =
        prepRun 10 cycStore (.node 0)) :=
  claim_C9_prepare_idempotent 9 30 5 cycStore 0 1
    ⟨.option [1], some "expr", none, none, false⟩
    ⟨.sequence [0, 0], none, none, none, false⟩
    (resolveFlags ⟨.sequence [0, 0], none, none, none, false⟩) rfl

/-!
### The fuel order and monotonicity of the evaluator
-/

theorem POutLe.refl (a : POut) : POutLe a a := Or.inl rfl

theorem nil_fuelOut_le (b : POut) : POutLe ([], .fuelOut) b :=
  Or.inr ⟨rfl, List.nil_prefix⟩

theorem POutLe.trans {a b c : POut} (h1 : POutLe a b) (h2 : POutLe b c) :
    POutLe a c := by
  rcases h1 with rfl | ⟨he, hp⟩
  · exact h2
  · rcases h2 with rfl | ⟨_, hp2⟩
    · exact Or.inr ⟨he, hp⟩
    · exact Or.inr ⟨he, hp.trans hp2⟩

/-- If the smaller side did not run out of fuel, the two sides agree. -/
theorem POutLe.eq_of_ne_fuelOut {a b : POut} (h : POutLe a b)
    (ha : a.2 ≠ .fuelOut) : a = b := by
  rcases h with rfl | ⟨he, _⟩
  · rfl
  · exact absurd he ha

theorem consOut_le {y : PRes × List Char} {a b : POut} (h : POutLe a b) :
    POutLe ((y :: a.1, a.2) : POut) ((y :: b.1, b.2) : POut) := by
  rcases h with rfl | ⟨he, hp⟩
  · exact Or.inl rfl
  · exact Or.inr ⟨he, (List.prefix_cons_inj y).mpr hp⟩

theorem seqApp_le {a a' b b' : POut} (ha : POutLe a a') (hb : POutLe b b') :
    POutLe (POut.seqApp a b) (POut.seqApp a' b') := by
  rcases a with ⟨l, e⟩
  cases e with
  | done =>
    rcases ha with rfl | ⟨he, _⟩
    · rcases hb with rfl | ⟨he2, hp2⟩
      · exact Or.inl rfl
      · exact Or.inr ⟨he2, by
          simpa [POut.seqApp] using (List.prefix_append_right_inj l).mpr hp2⟩
    · cases he
  | crashed =>
    rcases ha with rfl | ⟨he, _⟩
    · exact Or.inl rfl
    · cases he
  | fuelOut =>
    rcases ha with rfl | ⟨_, hp⟩
    · simp only [POut.seqApp]
      exact Or.inr ⟨rfl, List.prefix_refl _⟩
    · rcases a' with ⟨l', e'⟩
      cases e' <;>
        simp only [POut.seqApp] <;>
        exact Or.inr ⟨rfl, hp.trans (by first | exact List.prefix_append _ _ | exact List.prefix_refl _)⟩

theorem seqApp_assoc (a b c : POut) :
    POut.seqApp (POut.seqApp a b) c = POut.seqApp a (POut.seqApp b c) := by
  rcases a with ⟨l, e⟩
  cases e <;> rcases b with ⟨l2, e2⟩ <;> cases e2 <;> simp [POut.seqApp]

theorem seqApp_done_left (x : POut) : POut.seqApp ([], .done) x = x := by
  simp [POut.seqApp]

theorem wrapOut_le {fl : NodeFlags} {a b : POut} (h : POutLe a b) :
    POutLe (wrapOut fl a) (wrapOut fl b) := by
  rcases h with rfl | ⟨he, hp⟩
  · exact Or.inl rfl
  · exact Or.inr ⟨he, hp.map _⟩

/-- Raising the fuel refines the evaluator's output: on calls that agree
up to the fuel that computed the generators in their frames, the
lower-fuel run produces the same output, or a cut-off prefix of it.  In
particular (`run_stable`) once a run finishes without `fuelOut`, more
fuel changes nothing — the fueled evaluator approximates one
well-defined enumeration. -/
theorem run_mono :
    ∀ (f : Nat) {g : Nat} {c1 c2 : Call}, f ≤ g → CallLe c1 c2 →
      POutLe (run f c1) (run g c2) := by
  intro f
  induction f with
  | zero =>
    intro g c1 c2 _ _
    exact nil_fuelOut_le _
  | succ f ih =>
    intro g c1 c2 hfg hc
    obtain ⟨g, rfl⟩ : ∃ g', g = g' + 1 := ⟨g - 1, by omega⟩
    have hfg' : f ≤ g := by omega
    cases hc with
    | parse n text =>
      cases n with
      | symbol fl s => exact Or.inl rfl
      | regex fl src gg => exact Or.inl rfl
      | option fl opts =>
        simp only [run]
        induction opts with
        | nil => exact Or.inl rfl
        | cons o os iho =>
          simp only [List.map_cons, List.foldr_cons]
          exact seqApp_le (wrapOut_le (ih hfg' (CallLe.parse o text))) iho
      | sequence fl sq =>
        simp only [run]
        cases h0 : sq[0]? with
        | none => exact Or.inl rfl
        | some n0 =>
          exact ih hfg' (CallLe.seqLoop fl sq
            (List.forall₂_cons.mpr ⟨⟨rfl, ih hfg' (CallLe.parse n0 text)⟩,
              List.Forall₂.nil⟩))
      | repetition fl base mi ma =>
        have hm := ih hfg' (CallLe.repLoop fl base mi ma
          (List.forall₂_cons.mpr
            ⟨(⟨rfl, ih hfg' (CallLe.parse base text)⟩ :
                FrameLe ⟨[], run f (.parse base text)⟩ ⟨[], run g (.parse base text)⟩),
              List.Forall₂.nil⟩))
        simp only [run]
        rcases hm with heq | ⟨he, hp⟩
        · rw [heq]
          exact Or.inl rfl
        · exact Or.inr ⟨he, (List.prefix_append_right_inj _).mpr hp⟩
    | seqLoop fl sq h =>
      cases h with
      | nil => exact Or.inl rfl
      | @cons fr1 fr2 b1 b2 hfr hb =>
        obtain ⟨acc1, gl1, ge1⟩ := fr1
        obtain ⟨acc2, gl2, ge2⟩ := fr2
        obtain ⟨hacc, hgen⟩ := hfr
        simp only at hacc
        subst hacc
        rcases hgen with hgeq | ⟨hge, hgp⟩
        · cases hgeq
          cases gl1 with
          | nil =>
            simp only [run]
            cases ge1 with
            | done => exact ih hfg' (CallLe.seqLoop fl sq hb)
            | crashed => exact Or.inl rfl
            | fuelOut => exact Or.inl rfl
          | cons hd pend =>
            obtain ⟨r, t⟩ := hd
            have hlen : b1.length = b2.length := hb.length_eq
            simp only [run, hlen]
            by_cases hcnd : (b2.length + 1 == sq.length) = true
            · simp only [hcnd, if_true]
              exact consOut_le (ih hfg' (CallLe.seqLoop fl sq
                (List.forall₂_cons.mpr ⟨⟨rfl, POutLe.refl _⟩, hb⟩)))
            · simp only [if_neg hcnd]
              cases hnx : sq[b2.length + 1]? with
              | none => exact Or.inl rfl
              | some nxt =>
                exact ih hfg' (CallLe.seqLoop fl sq
                  (List.forall₂_cons.mpr ⟨⟨rfl, ih hfg' (CallLe.parse nxt t)⟩,
                    List.forall₂_cons.mpr ⟨⟨rfl, POutLe.refl _⟩, hb⟩⟩))
        · simp only at hge
          subst hge
          cases gl1 with
          | nil => exact nil_fuelOut_le _
          | cons hd pend1 =>
            obtain ⟨r, t⟩ := hd
            rcases gl2 with _ | ⟨hd2, pend2⟩
            · exact absurd hgp (by simp)
            · obtain ⟨hhd, hple⟩ := List.cons_prefix_cons.mp hgp
              subst hhd
              have hlen : b1.length = b2.length := hb.length_eq
              simp only [run, hlen]
              by_cases hcnd : (b2.length + 1 == sq.length) = true
              · simp only [hcnd, if_true]
                exact consOut_le (ih hfg' (CallLe.seqLoop fl sq
                  (List.forall₂_cons.mpr ⟨⟨rfl, Or.inr ⟨rfl, hple⟩⟩, hb⟩)))
              · simp only [if_neg hcnd]
                cases hnx : sq[b2.length + 1]? with
                | none => exact Or.inl rfl
                | some nxt =>
                  exact ih hfg' (CallLe.seqLoop fl sq
                    (List.forall₂_cons.mpr ⟨⟨rfl, ih hfg' (CallLe.parse nxt t)⟩,
                      List.forall₂_cons.mpr ⟨⟨rfl, Or.inr ⟨rfl, hple⟩⟩, hb⟩⟩))
    | repLoop fl base mi ma h =>
      cases h with
      | nil => exact Or.inl rfl
      | @cons fr1 fr2 b1 b2 hfr hb =>
        obtain ⟨acc1, gl1, ge1⟩ := fr1
        obtain ⟨acc2, gl2, ge2⟩ := fr2
        obtain ⟨hacc, hgen⟩ := hfr
        simp only at hacc
        subst hacc
        rcases hgen with hgeq | ⟨hge, hgp⟩
        · cases hgeq
          cases gl1 with
          | nil =>
            simp only [run]
            cases ge1 with
            | done => exact ih hfg' (CallLe.repLoop fl base mi ma hb)
            | crashed => exact Or.inl rfl
            | fuelOut => exact Or.inl rfl
          | cons hd pend =>
            obtain ⟨r, t⟩ := hd
            have hlen : b1.length = b2.length := hb.length_eq
            simp only [run, hlen]
            have hpush := ih hfg' (CallLe.repLoop fl base mi ma
              (List.forall₂_cons.mpr
                ⟨(⟨rfl, ih hfg' (CallLe.parse base t)⟩ :
                    FrameLe ⟨acc1 ++ [r], run f (.parse base t)⟩
                      ⟨acc1 ++ [r], run g (.parse base t)⟩),
                  List.forall₂_cons.mpr
                    ⟨(⟨rfl, POutLe.refl _⟩ :
                        FrameLe ⟨acc1, (pend, ge1)⟩ ⟨acc1, (pend, ge1)⟩), hb⟩⟩))
            have hstay := ih hfg' (CallLe.repLoop fl base mi ma
              (List.forall₂_cons.mpr
                ⟨(⟨rfl, POutLe.refl _⟩ :
                    FrameLe ⟨acc1, (pend, ge1)⟩ ⟨acc1, (pend, ge1)⟩), hb⟩))
            split
            · split
              · exact consOut_le hpush
              · exact consOut_le hstay
            · exact hpush
        · simp only at hge
          subst hge
          cases gl1 with
          | nil => exact nil_fuelOut_le _
          | cons hd pend1 =>
            obtain ⟨r, t⟩ := hd
            rcases gl2 with _ | ⟨hd2, pend2⟩
            · exact absurd hgp (by simp)
            · obtain ⟨hhd, hple⟩ := List.cons_prefix_cons.mp hgp
              subst hhd
              have hlen : b1.length = b2.length := hb.length_eq
              simp only [run, hlen]
              have hple' : POutLe ((pend1, .fuelOut) : POut) ((pend2, ge2) : POut) :=
                Or.inr ⟨rfl, hple⟩
              have hpush := ih hfg' (CallLe.repLoop fl base mi ma
                (List.forall₂_cons.mpr
                  ⟨(⟨rfl, ih hfg' (CallLe.parse base t)⟩ :
                      FrameLe ⟨acc1 ++ [r], run f (.parse base t)⟩
                        ⟨acc1 ++ [r], run g (.parse base t)⟩),
                    List.forall₂_cons.mpr
                      ⟨(⟨rfl, hple'⟩ :
                          FrameLe ⟨acc1, (pend1, .fuelOut)⟩ ⟨acc1, (pend2, ge2)⟩),
                        hb⟩⟩))
              have hstay := ih hfg' (CallLe.repLoop fl base mi ma
                (List.forall₂_cons.mpr
                  ⟨(⟨rfl, hple'⟩ :
                      FrameLe ⟨acc1, (pend1, .fuelOut)⟩ ⟨acc1, (pend2, ge2)⟩), hb⟩))
              split
              · split
                · exact consOut_le hpush
                · exact consOut_le hstay
              · exact hpush

/-- Prepending a yield to a generator's output commutes with running a
continuation after it. -/
theorem seqApp_cons_left (y : PRes × List Char) (l : List (PRes × List Char))
    (e : PEnd) (x : POut) :
    POut.seqApp ((y :: l, e) : POut) x =
      (y :: (POut.seqApp (l, e) x).1, (POut.seqApp (l, e) x).2) := by
  cases e <;> simp [POut.seqApp]

theorem forall₂_frameLe_refl (s : List MFrame) : List.Forall₂ FrameLe s s := by
  induction s with
  | nil => exact List.Forall₂.nil
  | cons fr s ih => exact List.Forall₂.cons ⟨rfl, POutLe.refl _⟩ ih

theorem CallLe.rfl (c : Call) : CallLe c c := by
  cases c with
  | parse n text => exact CallLe.parse n text
  | seqLoop fl sq s => exact CallLe.seqLoop fl sq (forall₂_frameLe_refl s)
  | repLoop fl base mi ma s => exact CallLe.repLoop fl base mi ma (forall₂_frameLe_refl s)

/-- Once the evaluator finishes a call without running out of fuel, any
larger fuel gives the identical output. -/
theorem run_stable {f g : Nat} (c : Call) (hf : (run f c).2 ≠ .fuelOut)
    (hfg : f ≤ g) : run g c = run f c :=
  ((run_mono f hfg (CallLe.rfl c)).eq_of_ne_fuelOut hf).symm

/-- `dStack` on a non-empty stack: the top frame's depth-first
enumeration, then the rest. -/
theorem dStack_cons (fl : NodeFlags) (base : GNode) (mi : Nat) (ma : Option Nat)
    (fuel : Nat) (fr : MFrame) (s : List MFrame) :
    dStack fl base mi ma fuel (fr :: s) =
      POut.seqApp (repDFS fl base mi ma fuel fr.acc fr.gen)
        (dStack fl base mi ma fuel s) := rfl

/-- Fuel monotonicity of the depth-first enumeration, over generators
related by the fuel order. -/
theorem repDFS_mono (fl : NodeFlags) (base : GNode) (mi : Nat) (ma : Option Nat) :
    ∀ (f g : Nat) (acc : List PRes) (gen1 gen2 : POut), f ≤ g → POutLe gen1 gen2 →
      POutLe (repDFS fl base mi ma f acc gen1) (repDFS fl base mi ma g acc gen2) := by
  intro f
  induction f with
  | zero =>
    intro g acc gen1 gen2 _ _
    exact nil_fuelOut_le _
  | succ f ih =>
    intro g acc gen1 gen2 hfg hgen
    obtain ⟨g, rfl⟩ : ∃ g', g = g' + 1 := ⟨g - 1, by omega⟩
    have hfg' : f ≤ g := by omega
    rcases gen1 with ⟨gl1, ge1⟩
    rcases gen2 with ⟨gl2, ge2⟩
    rcases hgen with hgeq | ⟨hge, hgp⟩
    · cases hgeq
      cases gl1 with
      | nil => exact Or.inl rfl
      | cons hd pend =>
        obtain ⟨r, t⟩ := hd
        simp only [repDFS]
        have hdeep := ih g (acc ++ [r]) (run f (.parse base t)) (run g (.parse base t))
          hfg' (run_mono f hfg' (CallLe.parse base t))
        have hcont := ih g acc ((pend, ge1) : POut) ((pend, ge1) : POut) hfg'
          (POutLe.refl _)
        split
        · split
          · exact consOut_le (seqApp_le hdeep hcont)
          · exact consOut_le hcont
        · exact seqApp_le hdeep hcont
    · simp only at hge
      subst hge
      cases gl1 with
      | nil => exact nil_fuelOut_le _
      | cons hd pend1 =>
        obtain ⟨r, t⟩ := hd
        rcases gl2 with _ | ⟨hd2, pend2⟩
        · exact absurd hgp (by simp)
        · obtain ⟨hhd, hple⟩ := List.cons_prefix_cons.mp hgp
          subst hhd
          simp only [repDFS]
          have hdeep := ih g (acc ++ [r]) (run f (.parse base t)) (run g (.parse base t))
            hfg' (run_mono f hfg' (CallLe.parse base t))
          have hcont := ih g acc ((pend1, .fuelOut) : POut) ((pend2, ge2) : POut) hfg'
            (Or.inr ⟨rfl, hple⟩)
          split
          · split
            · exact consOut_le (seqApp_le hdeep hcont)
            · exact consOut_le hcont
          · exact seqApp_le hdeep hcont

/-- Fuel monotonicity of the stack reading. -/
theorem dStack_le (fl : NodeFlags) (base : GNode) (mi : Nat) (ma : Option Nat)
    {f g : Nat} {s1 s2 : List MFrame} (hfg : f ≤ g)
    (h : List.Forall₂ FrameLe s1 s2) :
    POutLe (dStack fl base mi ma f s1) (dStack fl base mi ma g s2) := by
  induction h with
  | nil => exact Or.inl rfl
  | @cons a b l1 l2 hfr hrest ih =>
    rw [dStack_cons, dStack_cons]
    rcases hfr with ⟨ha, hg⟩
    rw [ha]
    exact seqApp_le (repDFS_mono fl base mi ma f g b.acc a.gen b.gen hfg hg) ih

theorem seqApp_cons_left2 (y : PRes × List Char) (m x : POut) :
    POut.seqApp ((y :: m.1, m.2) : POut) x =
      (y :: (POut.seqApp m x).1, (POut.seqApp m x).2) := by
  rcases m with ⟨l, e⟩
  cases e <;> simp [POut.seqApp]

/-- The stack machine of `Repetition.parse` is approximated by the
depth-first reading of its stack: for every machine fuel there is a
depth-first fuel beyond which the machine's output is (a fuel-cut prefix
of) the depth-first enumeration. -/
theorem machine_le_dfs (fl : NodeFlags) (base : GNode) (mi : Nat) (ma : Option Nat) :
    ∀ (F : Nat) (stack : List MFrame), ChainOK stack →
      ∃ H0 : Nat, ∀ H, H0 ≤ H →
        POutLe (run F (.repLoop fl base mi ma stack)) (dStack fl base mi ma H stack) := by
  intro F
  induction F with
  | zero =>
    intro stack _
    exact ⟨0, fun H _ => nil_fuelOut_le _⟩
  | succ F ih =>
    intro stack hchain
    cases stack with
    | nil => exact ⟨0, fun H _ => Or.inl rfl⟩
    | cons fr below =>
      obtain ⟨acc, gl, ge⟩ := fr
      obtain ⟨hlen, hchainb⟩ := hchain
      simp only at hlen
      cases gl with
      | nil =>
        cases ge with
        | done =>
          obtain ⟨H0, hH⟩ := ih below hchainb
          refine ⟨H0 + 1, fun H hH0 => ?_⟩
          obtain ⟨H', rfl⟩ : ∃ H'', H = H'' + 1 := ⟨H - 1, by omega⟩
          exact hH (H' + 1) (by omega)
        | crashed =>
          refine ⟨1, fun H hH0 => ?_⟩
          obtain ⟨H', rfl⟩ : ∃ H'', H = H'' + 1 := ⟨H - 1, by omega⟩
          exact Or.inl rfl
        | fuelOut => exact ⟨0, fun H _ => nil_fuelOut_le _⟩
      | cons hd pend =>
        obtain ⟨r, t⟩ := hd
        have hacclen : (acc ++ [r]).length = below.length + 1 := by simp [hlen]
        have hchain2 : ChainOK (⟨acc, (pend, ge)⟩ :: below) := ⟨hlen, hchainb⟩
        have hchain3 : ChainOK
            (⟨acc ++ [r], run F (.parse base t)⟩ :: ⟨acc, (pend, ge)⟩ :: below) :=
          ⟨by simpa using hlen, hchain2⟩
        obtain ⟨HA, hHA⟩ := ih _ hchain3
        obtain ⟨HB, hHB⟩ := ih _ hchain2
        refine ⟨max (max HA HB) F + 1, fun H hH0 => ?_⟩
        obtain ⟨H', rfl⟩ : ∃ H'', H = H'' + 1 := ⟨H - 1, by omega⟩
        have hFH : F ≤ H' := by omega
        rw [dStack_cons]
        simp only [run, repDFS]
        rw [hacclen]
        split
        · split
          · rw [seqApp_cons_left2]
            refine consOut_le ?_
            rw [seqApp_assoc]
            refine (hHA H' (by omega)).trans ?_
            rw [dStack_cons, dStack_cons]
            refine seqApp_le
              (repDFS_mono fl base mi ma H' H' (acc ++ [r]) _ _ (Nat.le_refl _)
                (run_mono F hFH (CallLe.parse base t))) ?_
            exact seqApp_le (POutLe.refl _)
              (dStack_le fl base mi ma (by omega) (forall₂_frameLe_refl below))
          · rw [seqApp_cons_left2]
            refine consOut_le ?_
            refine (hHB H' (by omega)).trans ?_
            rw [dStack_cons]
            exact seqApp_le (POutLe.refl _)
              (dStack_le fl base mi ma (by omega) (forall₂_frameLe_refl below))
        · rw [seqApp_assoc]
          refine (hHA H' (by omega)).trans ?_
          rw [dStack_cons, dStack_cons]
          refine seqApp_le
            (repDFS_mono fl base mi ma H' H' (acc ++ [r]) _ _ (Nat.le_refl _)
              (run_mono F hFH (CallLe.parse base t))) ?_
          exact seqApp_le (POutLe.refl _)
            (dStack_le fl base mi ma (by omega) (forall₂_frameLe_refl below))

/-- Claim C1, amended: `Repetition.parse` enumerates its results
*depth-first* over decompositions, not stratified by repetition count.
`repetitionDFS` is the depth-first enumeration: the `min == 0` empty
match first (so the first result has the minimal count), and after each
result of count `c` every extension of that very decomposition to higher
counts (as far as `max` allows), all before the alternate decompositions
of the last repetition, which backtracking resumes in the base node's
own priority order.  The theorem: whenever the fueled stack machine and
the fueled depth-first enumeration both finish (no `fuelOut`, any two
fuels), they are equal — the machine enumerates exactly this depth-first
order. -/
theorem claim_C1_amended (fl : NodeFlags) (base : GNode) (mi : Nat)
    (ma : Option Nat) (F H : Nat) (text : List Char)
    (hm : (GNode.parse (.repetition fl base mi ma) F text).2 ≠ .fuelOut)
    (hd : (repetitionDFS fl base mi ma H text).2 ≠ .fuelOut) :
    GNode.parse (.repetition fl base mi ma) F text =
      repetitionDFS fl base mi ma H text := by
  obtain ⟨F, rfl⟩ : ∃ F', F = F' + 1 := by
    cases F with
    | zero => exact absurd rfl hm
    | succ F => exact ⟨F, rfl⟩
  obtain ⟨H, rfl⟩ : ∃ H', H = H' + 1 := by
    cases H with
    | zero => exact absurd rfl hd
    | succ H => exact ⟨H, rfl⟩
  have hm' : (run F (.repLoop fl base mi ma
      [⟨[], run F (.parse base text)⟩])).2 ≠ .fuelOut := hm
  have hd' : (repDFS fl base mi ma H [] (run H (.parse base text))).2 ≠
      .fuelOut := hd
  have hchain : ChainOK [⟨([] : List PRes), run F (.parse base text)⟩] :=
    ⟨rfl, trivial⟩
  obtain ⟨H0, hH⟩ := machine_le_dfs fl base mi ma F _ hchain
  have h1 := hH (max (max H0 F) (H + 1)) (by omega)
  rw [dStack_cons,
    show dStack fl base mi ma (max (max H0 F) (H + 1)) [] = (([], .done) : POut)
      from rfl,
    seqApp_nil_done] at h1
  have h2 := h1.eq_of_ne_fuelOut hm'
  have hm'' : (repDFS fl base mi ma (max (max H0 F) (H + 1)) []
      (run F (.parse base text))).2 ≠ .fuelOut := h2 ▸ hm'
  have h3 := (repDFS_mono fl base mi ma (max (max H0 F) (H + 1))
    (max (max H0 F) (H + 1)) [] (run F (.parse base text))
    (run (max (max H0 F) (H + 1)) (.parse base text)) (Nat.le_refl _)
    (run_mono F (by omega) (CallLe.parse base text))).eq_of_ne_fuelOut hm''
  have h5 := (repDFS_mono fl base mi ma H (max (max H0 F) (H + 1)) []
    (run H (.parse base text))
    (run (max (max H0 F) (H + 1)) (.parse base text)) (by omega)
    (run_mono H (by omega) (CallLe.parse base text))).eq_of_ne_fuelOut hd'
  have key : run F (.repLoop fl base mi ma [⟨[], run F (.parse base text)⟩]) =
      repDFS fl base mi ma H [] (run H (.parse base text)) := by
    rw [h2, h3, ← h5]
  show ((if mi == 0 then [(build fl [], text)] else []) ++
      (run F (.repLoop fl base mi ma [⟨[], run F (.parse base text)⟩])).1,
      (run F (.repLoop fl base mi ma [⟨[], run F (.parse base text)⟩])).2) = _
  rw [key]
  rfl

theorem claim_C1_amended_witness :
    GNode.parse (.repetition visFlags ambigA 0 (some 2)) 40 ['a', 'a'] =
      repetitionDFS visFlags ambigA 0 (some 2) 40 ['a', 'a'] :=
  claim_C1_amended visFlags ambigA 0 (some 2) 40 40 ['a', 'a']
    (by decide) (by decide)

/-- On any machine state, a `max` bound at most `min` is inert: `max` is
read only in the extension test after a yield, where the committed count
is already at least `min`, so the test is false for every `max ≤ min`
and the machine never behaves differently for two such bounds. -/
theorem repLoop_max_le_min (fl : NodeFlags) (base : GNode) (mi : Nat) :
    ∀ (F : Nat) (m1 m2 : Nat) (stack : List MFrame), m1 ≤ mi → m2 ≤ mi →
      run F (.repLoop fl base mi (some m1) stack) =
        run F (.repLoop fl base mi (some m2) stack) := by
  intro F
  induction F with
  | zero => intro m1 m2 stack _ _; rfl
  | succ F ih =>
    intro m1 m2 stack h1 h2
    cases stack with
    | nil => rfl
    | cons fr below =>
      obtain ⟨acc, gl, ge⟩ := fr
      cases gl with
      | nil =>
        cases ge with
        | done =>
          simp only [run]
          exact ih m1 m2 below h1 h2
        | crashed => rfl
        | fuelOut => rfl
      | cons hd pend =>
        obtain ⟨r, t⟩ := hd
        simp only [run]
        by_cases hmi : mi ≤ below.length + 1
        · rw [if_pos hmi, if_pos hmi]
          have hd1 : decide (below.length + 1 < m1) = false := by
            simp only [decide_eq_false_iff_not, Nat.not_lt]
            omega
          have hd2 : decide (below.length + 1 < m2) = false := by
            simp only [decide_eq_false_iff_not, Nat.not_lt]
            omega
          rw [hd1, hd2]
          simp only [Bool.false_eq_true, if_false]
          rw [ih m1 m2 (⟨acc, (pend, ge)⟩ :: below) h1 h2]
        · rw [if_neg hmi, if_neg hmi]
          exact ih m1 m2
            (⟨acc ++ [r], run F (.parse base t)⟩ :: ⟨acc, (pend, ge)⟩ :: below) h1 h2

/-- Claim C3, amended: construction with `min > max` succeeds silently
(`Repetition.__init__` stores the bounds with no validation), and
`parse` silently produces matches: `max` is consulted only in the
extension test after a yield, where at least `min` repetitions are
already committed, so any `max ≤ min` — the `min > max` case included —
makes the node behave exactly like `Repetition(base, min, min)`: it
yields every `min`-repetition match (see the counterexample for a
concrete yielded match). -/
theorem claim_C3_amended (fl : NodeFlags) (base : GNode) (mi m F : Nat)
    (text : List Char) (hm : m ≤ mi) :
    GNode.parse (.repetition fl base mi (some m)) F text =
      GNode.parse (.repetition fl base mi (some mi)) F text := by
  cases F with
  | zero => rfl
  | succ F =>
    simp only [GNode.parse, run]
    rw [repLoop_max_le_min fl base mi F m mi [⟨[], run F (.parse base text)⟩]
      hm (Nat.le_refl mi)]

theorem claim_C3_amended_witness :
    GNode.parse (.repetition visFlags symA 2 (some 1)) 20 ['a', 'a'] =
      GNode.parse (.repetition visFlags symA 2 (some 2)) 20 ['a', 'a'] :=
  claim_C3_amended visFlags symA 2 1 20 ['a', 'a'] (by decide)

/-- Cross-validation of the `Sequence.parse` machine: the two-element
sequence `Symbol('a') + Symbol('b')` on `"ab"` yields exactly the one
full match, consuming everything. -/
theorem seq_model_check_ab :
    GNode.parse (.sequence visFlags [symA, .symbol visFlags ['b']]) 10 ['a', 'b'] =
      ([(.tree "<unnamed node>"
            [.tree "<unnamed node>" [.str ['a']],
             .tree "<unnamed node>" [.str ['b']]], [])], .done) := rfl

/-- Cross-validation of `Sequence.parse` backtracking: with the
ambiguous first element `Option([Symbol('a'), Symbol('a')])`, after the
first alternative's continuation is exhausted the machine resumes the
first element's generator and replays the continuation, yielding the
full match once per decomposition, in the alternatives' order. -/
theorem seq_model_check_ambig :
    GNode.parse (.sequence visFlags [ambigA, .symbol visFlags ['b']]) 12 ['a', 'b'] =
      ([(.tree "<unnamed node>"
            [.tree "<unnamed node>" [.tree "<unnamed node>" [.str ['a']]],
             .tree "<unnamed node>" [.str ['b']]], []),
        (.tree "<unnamed node>"
            [.tree "<unnamed node>" [.tree "<unnamed node>" [.str ['a']]],
             .tree "<unnamed node>" [.str ['b']]], [])], .done) := rfl
